import Mathlib

/-!
Shallow embedding of the classification engine of `src/main.py` (class
`DicomParser`): candidate filtering (`check_file_type`, `check_file`),
tag matching (`check_tags`), index construction (`meta_data_search`,
`scan_folder` with the auto-vivifying `NestedDefaultDict` path memory),
and completeness validation (`check_path_memory`).

Python dictionaries are embedded as association lists preserving
insertion order (updating an existing key keeps its position, a new key
is appended at the end), Python exceptions as `Except String`, and
Python truthiness of `str` values as non-emptiness.
-/

/-- Python substring containment `x in s` on strings (case-sensitive). -/
def strIn (x s : String) : Bool := decide (x.toList <:+: s.toList)

/-- Metadata of one file, the model of a pydicom dataset: a key-value
mapping queried with `ds.get(key)`. -/
abbrev FileMeta := List (String × String)

/-- Python `ds.get(key)`: `some value` when the key is present, `none`
otherwise. -/
def dsGet (ds : FileMeta) (key : String) : Option String := ds.lookup key

/-- Python truthiness of an optional string: `None` and the empty string
are falsy, every other string is truthy. -/
def pyTruthy : Option String → Bool
  | none => false
  | some s => !s.isEmpty

/-- Python `str(...)` applied to `ds.get(...)`: `str(None)` is the
literal string `"None"`. -/
def pyStr : Option String → String
  | none => "None"
  | some s => s

/-- Rules of a single category (one value of `search_tags`): metadata
key to ordered sequence of value-groups, each group a list of
substrings. -/
abbrev ModRules := List (String × List (List String))

/-- The whole `search_tags` configuration: category name to rules. -/
abbrev SearchTags := List (String × ModRules)

/-- The nested path memory: case name to category name to file path. -/
abbrev PathIndex := List (String × List (String × String))

/-- Python dict assignment `d[k] = v`: replace in place when the key
exists, append at the end otherwise. -/
def dictSet {β : Type} : List (String × β) → String → β → List (String × β)
  | [], k, v => [(k, v)]
  | (k1, v1) :: rest, k, v =>
    if k1 = k then (k1, v) :: rest else (k1, v1) :: dictSet rest k v

/-- Assignment `path_memory[case_name][modality] = file_path` on the
`NestedDefaultDict`: a missing case auto-vivifies to an empty inner
dict. -/
def pathSet (pm : PathIndex) (case_name modality file_path : String) : PathIndex :=
  dictSet pm case_name (dictSet ((pm.lookup case_name).getD []) modality file_path)

/-- Lookup `path_memory[case_name][modality]` without auto-vivification
(used only to state properties). -/
def pathLookup (pm : PathIndex) (case_name modality : String) : Option String :=
  (pm.lookup case_name).bind (fun inner => inner.lookup modality)

/-- The `ValueError` message raised by `check_tags` on a missing or
falsy metadata value. -/
def tagError (case_name key : String) : String :=
  "Value for case " ++ case_name ++ " with key \"" ++ key ++ "\" -> None"

/-- Loop of `DicomParser.check_tags` over the keys of one category,
carrying the `counter` and `count_values` accumulators. A key whose
metadata value is falsy (absent or empty) raises `ValueError`; a truthy
key adds one to `counter` per value-group containing some substring of
the metadata value, and the group count to `count_values`. -/
def checkTagsGo (ds : FileMeta) (case_name : String) :
    ModRules → Nat → Nat → Except String Bool
  | [], counter, count_values => .ok (counter == count_values && counter != 0)
  | (key, search_values) :: rest, counter, count_values =>
    match dsGet ds key with
    | some meta_data =>
      if meta_data.isEmpty then
        .error (tagError case_name key)
      else
        checkTagsGo ds case_name rest
          (counter + (search_values.filter (fun value => value.any (fun x => strIn x meta_data))).length)
          (count_values + search_values.length)
    | none => .error (tagError case_name key)

/-- `DicomParser.check_tags` for one category: true exactly when the
accumulated `counter` equals `count_values` and is nonzero. The rules
passed in are `self.search_tags[modality]`. -/
def check_tags (ds : FileMeta) (rules : ModRules) (case_name : String) :
    Except String Bool :=
  checkTagsGo ds case_name rules 0 0

/-- The case identity `str(ds.get('PatientName'))` derived in
`meta_data_search`. -/
def case_name_of (ds : FileMeta) : String := pyStr (dsGet ds "PatientName")

/-- Loop of `DicomParser.meta_data_search` over all configured
categories: a raised `ValueError` propagates, a match records the file
path under `(case_name, modality)`. -/
def mdsGo (ds : FileMeta) (case_name file_path : String) :
    SearchTags → PathIndex → Except String PathIndex
  | [], pm => .ok pm
  | (modality, rules) :: rest, pm =>
    match check_tags ds rules case_name with
    | .error e => .error e
    | .ok true => mdsGo ds case_name file_path rest (pathSet pm case_name modality file_path)
    | .ok false => mdsGo ds case_name file_path rest pm

/-- `DicomParser.meta_data_search`: derive the case name from the
file's own metadata and try every configured category. -/
def meta_data_search (search_tags : SearchTags) (ds : FileMeta)
    (file_path : String) (pm : PathIndex) : Except String PathIndex :=
  mdsGo ds (case_name_of ds) file_path search_tags pm

/-- Configuration fields of `DicomParser.__init__` used by the
classification engine. -/
structure DicomParser where
  min_number_of_slices : Nat
  file_types : List String
  search_tags : SearchTags
  exclude_tags : List String

/-- Python `file_name.endswith(x)`: `x` is a suffix of `file_name`. -/
def strEndsWith (s x : String) : Bool := decide (x.toList <:+ s.toList)

/-- `DicomParser.check_file_type`: true when the list comprehension
`[x for x in self.file_types if file_name.endswith(x)]` is non-empty. -/
def check_file_type (file_types : List String) (file_name : String) : Bool :=
  !(file_types.filter (fun x => strEndsWith file_name x)).isEmpty

/-- `DicomParser.check_file`: `check_1` is regular-file plus suffix,
`check_2` is absence of every exclude tag from the full path, `check_3`
compares the entry count of the containing directory with the minimum;
the product of the three booleans is their conjunction. -/
def check_file (cfg : DicomParser) (is_file : Bool) (file_path : String)
    (count_slices : Nat) : Bool :=
  let check_1 := is_file && check_file_type cfg.file_types file_path
  let check_2 := (cfg.exclude_tags.filter (fun x => strIn x file_path)).isEmpty
  let check_3 := decide (cfg.min_number_of_slices ≤ count_slices)
  check_1 && check_2 && check_3

/-- A file of the walked tree: its name, whether `os.path.isfile` holds
for it, and the metadata `dcmread` returns for it. -/
structure SrcFile where
  name : String
  is_file : Bool
  meta : FileMeta

/-- A directory visited by `os.walk`: its root path, the length of
`os.listdir(root)` (files and subdirectories), and its files in
listing order. -/
structure SrcDir where
  root : String
  listdirCount : Nat
  files : List SrcFile

/-- `os.path.join(root, file)`. -/
def pathJoin (root name : String) : String := root ++ "/" ++ name

/-- Inner loop of `DicomParser.scan_folder` over one directory's files:
the first file passing `check_file` is handed to `meta_data_search`
and the loop breaks; a raised error propagates. -/
def scanFiles (cfg : DicomParser) (root : String) (count_slices : Nat) :
    List SrcFile → PathIndex → Except String PathIndex
  | [], pm => .ok pm
  | f :: rest, pm =>
    if check_file cfg f.is_file (pathJoin root f.name) count_slices then
      meta_data_search cfg.search_tags f.meta (pathJoin root f.name) pm
    else
      scanFiles cfg root count_slices rest pm

/-- `DicomParser.scan_folder`: walk the directories in order, threading
the path memory; a raised error aborts the walk. -/
def scan_folder (cfg : DicomParser) : List SrcDir → PathIndex → Except String PathIndex
  | [], pm => .ok pm
  | d :: rest, pm =>
    match scanFiles cfg d.root d.listdirCount d.files pm with
    | .error e => .error e
    | .ok pm2 => scan_folder cfg rest pm2

/-- The initial, empty path memory of `DicomParser.__init__`. -/
def pathMemInit : PathIndex := []

/-- The `missing_sequences` set computed by `check_path_memory` for one
case: configured category names absent from the case's recorded
categories (`set(self.search_tags).difference(set(sequence_names))`). -/
def missingSequences (search_tags : SearchTags)
    (sequence_names : List (String × String)) : List String :=
  (search_tags.map Prod.fst).filter (fun t => decide (t ∉ sequence_names.map Prod.fst))

/-- `DicomParser.check_path_memory`: report, for every case whose
recorded category count differs from the configured category count, the
missing category names. -/
def check_path_memory (cfg : DicomParser) (pm : PathIndex) :
    List (String × List String) :=
  pm.filterMap (fun entry =>
    if cfg.search_tags.length ≠ entry.2.length then
      some (entry.1, missingSequences cfg.search_tags entry.2)
    else none)

/-! ### Helper lemmas about the dictionary model -/

theorem lookupCons {β : Type} (a k : String) (v : β) (rest : List (String × β)) :
    List.lookup a ((k, v) :: rest) = if a = k then some v else List.lookup a rest := by
  rw [List.lookup_cons]
  by_cases h : a = k
  · simp [h]
  · rw [beq_eq_false_iff_ne.mpr h, if_neg h]

theorem lookup_dictSet_self {β : Type} (d : List (String × β)) (k : String) (v : β) :
    (dictSet d k v).lookup k = some v := by
  induction d with
  | nil => simp [dictSet, lookupCons]
  | cons p rest ih =>
    obtain ⟨k1, v1⟩ := p
    by_cases hk : k1 = k
    · subst hk
      simp [dictSet, lookupCons]
    · simp [dictSet, hk, lookupCons, Ne.symm hk, ih]

theorem lookup_dictSet_ne {β : Type} (d : List (String × β)) (k k2 : String) (v : β)
    (h : k2 ≠ k) : (dictSet d k v).lookup k2 = d.lookup k2 := by
  induction d with
  | nil => simp [dictSet, lookupCons, h]
  | cons p rest ih =>
    obtain ⟨k1, v1⟩ := p
    by_cases hk : k1 = k
    · subst hk
      simp [dictSet, lookupCons, h]
    · by_cases hk2 : k2 = k1
      · simp [dictSet, hk, lookupCons, hk2]
      · simp [dictSet, hk, lookupCons, hk2, ih]

theorem dictSet_eq_self {β : Type} (d : List (String × β)) (k : String) (v : β)
    (h : d.lookup k = some v) : dictSet d k v = d := by
  induction d with
  | nil => simp [List.lookup] at h
  | cons p rest ih =>
    obtain ⟨k1, v1⟩ := p
    by_cases hk : k1 = k
    · subst hk
      rw [lookupCons] at h
      simp at h
      simp [dictSet, h]
    · rw [lookupCons] at h
      rw [if_neg (Ne.symm hk)] at h
      simp [dictSet, hk, ih h]

theorem mem_dictSet {β : Type} (d : List (String × β)) (k k2 : String) (v v2 : β)
    (h : (k2, v2) ∈ dictSet d k v) : (k2 = k ∧ v2 = v) ∨ (k2, v2) ∈ d := by
  induction d with
  | nil =>
    simp [dictSet] at h
    exact Or.inl ⟨h.1, h.2⟩
  | cons p rest ih =>
    obtain ⟨k1, v1⟩ := p
    by_cases hk : k1 = k
    · subst hk
      simp [dictSet] at h
      rcases h with ⟨h1, h2⟩ | h
      · exact Or.inl ⟨h1, h2⟩
      · exact Or.inr (List.mem_cons_of_mem _ h)
    · simp [dictSet, hk] at h
      rcases h with ⟨h1, h2⟩ | h
      · subst h1; subst h2; exact Or.inr (List.mem_cons_self _ _)
      · rcases ih h with h2 | h2
        · exact Or.inl h2
        · exact Or.inr (List.mem_cons_of_mem _ h2)

theorem mem_of_lookup_eq_some {β : Type} (d : List (String × β)) (k : String) (v : β)
    (h : d.lookup k = some v) : (k, v) ∈ d := by
  induction d with
  | nil => simp [List.lookup] at h
  | cons p rest ih =>
    obtain ⟨k1, v1⟩ := p
    by_cases hk : k = k1
    · subst hk
      rw [lookupCons, if_pos rfl] at h
      simp at h
      simp [h]
    · rw [lookupCons, if_neg hk] at h
      exact List.mem_cons_of_mem _ (ih h)

theorem assoc_unique {β : Type} (d : List (String × β)) (k : String) (a b : β)
    (hnd : (d.map Prod.fst).Nodup) (ha : (k, a) ∈ d) (hb : (k, b) ∈ d) : a = b := by
  induction d with
  | nil => simp at ha
  | cons p rest ih =>
    obtain ⟨k1, v1⟩ := p
    simp at hnd
    rcases List.mem_cons.mp ha with h1 | h1 <;> rcases List.mem_cons.mp hb with h2 | h2
    · rw [Prod.mk.injEq] at h1 h2
      rw [h1.2, h2.2]
    · rw [Prod.mk.injEq] at h1
      exact absurd (h1.1 ▸ h2) (hnd.1 b)
    · rw [Prod.mk.injEq] at h2
      exact absurd (h2.1 ▸ h1) (hnd.1 a)
    · exact ih hnd.2 h1 h2

theorem pathLookup_pathSet_self (pm : PathIndex) (c m fp : String) :
    pathLookup (pathSet pm c m fp) c m = some fp := by
  unfold pathLookup pathSet
  rw [lookup_dictSet_self]
  simp [lookup_dictSet_self]

theorem pathLookup_pathSet_ne (pm : PathIndex) (c m fp c2 m2 : String)
    (h : c2 ≠ c ∨ m2 ≠ m) : pathLookup (pathSet pm c2 m2 fp) c m = pathLookup pm c m := by
  unfold pathLookup pathSet
  by_cases hc : c = c2
  · subst hc
    rcases h with h | h
    · exact absurd rfl h
    · rw [lookup_dictSet_self]
      cases hl : pm.lookup c with
      | none => simp [lookup_dictSet_ne _ _ _ _ (Ne.symm h), lookupCons, Ne.symm h]
      | some inner => simp [lookup_dictSet_ne _ _ _ _ (Ne.symm h)]
  · rw [lookup_dictSet_ne _ _ _ _ hc]

theorem pathSet_eq_self (pm : PathIndex) (c m fp : String)
    (h : pathLookup pm c m = some fp) : pathSet pm c m fp = pm := by
  unfold pathLookup at h
  cases hl : pm.lookup c with
  | none => rw [hl] at h; simp at h
  | some inner =>
    rw [hl] at h
    simp at h
    unfold pathSet
    rw [hl]
    simp only [Option.getD_some]
    rw [dictSet_eq_self inner m fp h, dictSet_eq_self pm c inner hl]

/-! ### Spec-side counts for the Tag Matcher -/

/-- Total number of value-groups declared for a category. -/
def totalGroups (rules : ModRules) : Nat := (rules.map (fun kv => kv.2.length)).sum

/-- Metadata value at a key, defaulting to the empty string. -/
def metaVal (ds : FileMeta) (key : String) : String := (dsGet ds key).getD ""

/-- Number of satisfied value-groups of a category: a group is satisfied
when at least one of its substrings occurs in the metadata value of its
key, and each group counts at most once. -/
def satGroups (ds : FileMeta) (rules : ModRules) : Nat :=
  (rules.map
    (fun kv => (kv.2.filter (fun value => value.any (fun x => strIn x (metaVal ds kv.1)))).length)).sum

theorem checkTagsGo_all_truthy (ds : FileMeta) (cn : String) (rules : ModRules)
    (h : ∀ kv ∈ rules, pyTruthy (dsGet ds kv.1) = true) (counter count_values : Nat) :
    checkTagsGo ds cn rules counter count_values =
      .ok (((counter + satGroups ds rules) == (count_values + totalGroups rules)) &&
           ((counter + satGroups ds rules) != 0)) := by
  induction rules generalizing counter count_values with
  | nil => simp [checkTagsGo, satGroups, totalGroups]
  | cons kv rest ih =>
    obtain ⟨key, sv⟩ := kv
    have hk := h (key, sv) (List.mem_cons_self _ _)
    cases hdg : dsGet ds key with
    | none => rw [hdg] at hk; simp [pyTruthy] at hk
    | some s =>
      rw [hdg] at hk
      have hs : s.isEmpty = false := by
        simp [pyTruthy] at hk
        exact hk
      have hmv : metaVal ds key = s := by simp [metaVal, hdg]
      simp only [checkTagsGo, hdg, hs, Bool.false_eq_true, if_false]
      rw [ih (fun kv2 hm => h kv2 (List.mem_cons_of_mem _ hm))]
      have hsat : satGroups ds ((key, sv) :: rest) =
          (sv.filter (fun value => value.any (fun x => strIn x s))).length + satGroups ds rest := by
        simp [satGroups, hmv]
      have htot : totalGroups ((key, sv) :: rest) = sv.length + totalGroups rest := by
        simp [totalGroups]
      rw [hsat, htot]
      congr 1
      rw [← Nat.add_assoc, ← Nat.add_assoc]

/-! ### Concrete fixtures used by witnesses -/

/-- The rule set of the spec's end-to-end scenario: category with two
single-substring value-groups on different keys. -/
def rulesW : ModRules := [("Description", [["FOO"]]), ("Kind", [["X"]])]

/-- Metadata satisfying both groups of `rulesW`. -/
def dsW : FileMeta := [("Description", "FOO-scan"), ("Kind", "X-ray"), ("PatientName", "p1")]

/-- Metadata whose `Kind` value is present but empty. -/
def dsEmptyW : FileMeta := [("Description", "FOO-scan"), ("Kind", ""), ("PatientName", "p1")]

/-- Metadata with no `Kind` key at all. -/
def dsAbsentW : FileMeta := [("Description", "FOO-scan"), ("PatientName", "p1")]

/-- Claim C1: when every key required by a category carries a non-empty
metadata value, `check_tags` returns true if and only if the number of
satisfied value-groups equals the total number of value-groups declared
for the category and that total is nonzero. -/
theorem c1_check_tags_iff (ds : FileMeta) (rules : ModRules) (cn : String)
    (h : ∀ kv ∈ rules, pyTruthy (dsGet ds kv.1) = true) :
    check_tags ds rules cn = .ok true ↔
      (satGroups ds rules = totalGroups rules ∧ totalGroups rules ≠ 0) := by
  rw [check_tags, checkTagsGo_all_truthy ds cn rules h 0 0]
  simp only [Nat.zero_add, Except.ok.injEq, Bool.and_eq_true, beq_iff_eq, bne_iff_ne,
    ne_eq]
  constructor
  · rintro ⟨h1, h2⟩
    exact ⟨h1, by omega⟩
  · rintro ⟨h1, h2⟩
    exact ⟨h1, by omega⟩

theorem c1_check_tags_iff_witness :
    (∀ kv ∈ rulesW, pyTruthy (dsGet dsW kv.1) = true) ∧
      check_tags dsW rulesW "p1" = .ok true :=
  ⟨by decide, (c1_check_tags_iff dsW rulesW "p1" (by decide)).mpr (by decide)⟩

/-- Claim C3 (counterexample): with an empty suffix set the candidate
filter rejects the name `"scan.dcm"` instead of accepting it, because
the list comprehension over an empty `file_types` is empty. -/
theorem c3_counterexample : check_file_type [] "scan.dcm" = false := rfl

/-- Claim C3 (amended): if the configured set of accepted file-type
suffixes is empty, `check_file_type` returns false for every file
name — an empty suffix set rejects all names. -/
theorem c3_empty_suffixes_reject_all (file_name : String) :
    check_file_type [] file_name = false := rfl

/-- Claim C7: `check_file` accepts exactly when all of its checks pass
at once — existing regular file with an accepted suffix, no excluded
substring in the full path, and at least the minimum number of entries
in the containing directory; in particular a too-small directory is
rejected regardless of everything else. -/
theorem c7_check_file_conjunction (cfg : DicomParser) (is_file : Bool)
    (file_path : String) (count_slices : Nat) :
    (check_file cfg is_file file_path count_slices = true ↔
      (is_file = true ∧ (∃ t ∈ cfg.file_types, strEndsWith file_path t = true) ∧
        (∀ x ∈ cfg.exclude_tags, strIn x file_path = false) ∧
        cfg.min_number_of_slices ≤ count_slices)) ∧
    (count_slices < cfg.min_number_of_slices →
      check_file cfg is_file file_path count_slices = false) := by
  constructor
  · simp only [check_file, check_file_type, Bool.and_eq_true, Bool.not_eq_true',
      List.isEmpty_eq_true, List.isEmpty_eq_false, decide_eq_true_eq, ne_eq,
      List.filter_eq_nil_iff, Bool.not_eq_true, and_assoc]
    constructor
    · rintro ⟨h1, h2, h3, h4⟩
      push_neg at h2
      rcases h2 with ⟨t, ht1, ht2⟩
      exact ⟨h1, ⟨t, ht1, by simpa using ht2⟩, fun x hx => h3 x hx, h4⟩
    · rintro ⟨h1, ⟨t, ht1, ht2⟩, h3, h4⟩
      refine ⟨h1, ?_, fun x hx => h3 x hx, h4⟩
      intro hall
      have := hall t ht1
      rw [ht2] at this
      simp at this
  · intro hlt
    have h3 : decide (cfg.min_number_of_slices ≤ count_slices) = false := by
      simp [Nat.not_le.mpr hlt]
    simp [check_file, h3]

theorem c7_check_file_conjunction_witness :
    check_file ⟨5, [".dcm"], [], []⟩ true "a.dcm" 3 = false :=
  (c7_check_file_conjunction ⟨5, [".dcm"], [], []⟩ true "a.dcm" 3).2 (by decide)

/-! ### Tag Matcher error behaviour -/

theorem checkTagsGo_error_of_falsy (ds : FileMeta) (cn : String) (rules : ModRules)
    (hfal : ∃ kv ∈ rules, pyTruthy (dsGet ds kv.1) = false) (counter count_values : Nat) :
    ∃ e, checkTagsGo ds cn rules counter count_values = .error e := by
  induction rules generalizing counter count_values with
  | nil => rcases hfal with ⟨kv, hmem, _⟩; simp at hmem
  | cons kv0 rest ih =>
    obtain ⟨key, sv⟩ := kv0
    cases hdg : dsGet ds key with
    | none => exact ⟨tagError cn key, by simp [checkTagsGo, hdg]⟩
    | some s =>
      by_cases hs : s.isEmpty
      · exact ⟨tagError cn key, by simp [checkTagsGo, hdg, hs]⟩
      · rcases hfal with ⟨kv, hmem, hfv⟩
        have hrest : kv ∈ rest := by
          rcases List.mem_cons.mp hmem with h1 | h1
          · exfalso
            rw [h1] at hfv
            simp only [pyTruthy, hdg] at hfv
            simp at hfv
            exact hs hfv
          · exact h1
        obtain ⟨e, he⟩ := ih ⟨kv, hrest, hfv⟩
          (counter + (sv.filter (fun value => value.any (fun x => strIn x s))).length)
          (count_values + sv.length)
        exact ⟨e, by simp [checkTagsGo, hdg, hs, he]⟩

theorem checkTagsGo_empty_eq_absent (ds ds2 : FileMeta) (cn k : String)
    (hds : dsGet ds k = some "") (hds2 : dsGet ds2 k = none)
    (hagree : ∀ k2, k2 ≠ k → dsGet ds2 k2 = dsGet ds k2) (rules : ModRules)
    (counter count_values : Nat) :
    checkTagsGo ds cn rules counter count_values =
      checkTagsGo ds2 cn rules counter count_values := by
  induction rules generalizing counter count_values with
  | nil => rfl
  | cons kv rest ih =>
    obtain ⟨key, sv⟩ := kv
    by_cases hk : key = k
    · subst hk
      simp [checkTagsGo, hds, hds2, String.isEmpty]
    · have hag := hagree key hk
      cases hdg : dsGet ds key with
      | none => simp [checkTagsGo, hdg, hag.trans hdg]
      | some s =>
        by_cases hs : s.isEmpty
        · simp [checkTagsGo, hdg, hag.trans hdg, hs]
        · simp only [checkTagsGo, hdg, hag.trans hdg, hs, Bool.false_eq_true, if_false]
          exact ih _ _

/-- Claim C9: a required metadata key whose value is present but empty
makes `check_tags` raise: the result is an error, and it is the very
same result as for metadata where the key is absent, so empty values
and absent keys are indistinguishable at the interface. -/
theorem c9_empty_value_raises (ds ds2 : FileMeta) (rules : ModRules) (cn k : String)
    (gs : List (List String)) (hreq : (k, gs) ∈ rules)
    (hds : dsGet ds k = some "") (hds2 : dsGet ds2 k = none)
    (hagree : ∀ k2, k2 ≠ k → dsGet ds2 k2 = dsGet ds k2) :
    (check_tags ds rules cn).isOk = false ∧
      check_tags ds rules cn = check_tags ds2 rules cn := by
  constructor
  · obtain ⟨e, he⟩ := checkTagsGo_error_of_falsy ds cn rules
      ⟨(k, gs), hreq, by rw [hds]; rfl⟩ 0 0
    rw [check_tags, he]
    rfl
  · exact checkTagsGo_empty_eq_absent ds ds2 cn k hds hds2 hagree rules 0 0

theorem c9_empty_value_raises_witness :
    (check_tags dsEmptyW rulesW "p1").isOk = false ∧
      check_tags dsEmptyW rulesW "p1" = check_tags dsAbsentW rulesW "p1" := by
  refine c9_empty_value_raises dsEmptyW dsAbsentW rulesW "p1" "Kind" [["X"]]
    (by decide) (by decide) (by decide) ?_
  intro k2 hk2
  by_cases h1 : k2 = "Description"
  · simp [dsGet, dsEmptyW, dsAbsentW, lookupCons, h1]
  · by_cases h2 : k2 = "PatientName"
    · simp [dsGet, dsEmptyW, dsAbsentW, lookupCons, h1, h2, hk2]
    · simp [dsGet, dsEmptyW, dsAbsentW, lookupCons, h1, h2, hk2]

/-! ### Classifier lemmas -/

theorem pathLookup_pathSet_keep (pm : PathIndex) (c m fp c2 m2 : String)
    (h : pathLookup pm c m = some fp) :
    pathLookup (pathSet pm c2 m2 fp) c m = some fp := by
  by_cases hc : c2 = c
  · by_cases hm : m2 = m
    · rw [hc, hm]
      exact pathLookup_pathSet_self pm c m fp
    · rw [pathLookup_pathSet_ne pm c m fp c2 m2 (Or.inr hm), h]
  · rw [pathLookup_pathSet_ne pm c m fp c2 m2 (Or.inl hc), h]

theorem mdsGo_error_of_falsy (ds : FileMeta) (cn fp : String) (tags : SearchTags)
    (h : ∃ mr ∈ tags, ∃ kv ∈ mr.2, pyTruthy (dsGet ds kv.1) = false) (pm : PathIndex) :
    ∃ e, mdsGo ds cn fp tags pm = .error e := by
  induction tags generalizing pm with
  | nil => rcases h with ⟨mr, hmem, _⟩; simp at hmem
  | cons mr0 rest ih =>
    obtain ⟨m0, R0⟩ := mr0
    cases hct : check_tags ds R0 cn with
    | error e => exact ⟨e, by simp [mdsGo, hct]⟩
    | ok b =>
      rcases h with ⟨mr, hmem, hkv⟩
      have hrest : mr ∈ rest := by
        rcases List.mem_cons.mp hmem with h1 | h1
        · exfalso
          rw [h1] at hkv
          obtain ⟨e, he⟩ := checkTagsGo_error_of_falsy ds cn R0 hkv 0 0
          rw [check_tags, he] at hct
          cases hct
        · exact h1
      cases b with
      | false =>
        obtain ⟨e, he⟩ := ih ⟨mr, hrest, hkv⟩ pm
        exact ⟨e, by simp [mdsGo, hct, he]⟩
      | true =>
        obtain ⟨e, he⟩ := ih ⟨mr, hrest, hkv⟩ (pathSet pm cn m0 fp)
        exact ⟨e, by simp [mdsGo, hct, he]⟩

theorem mdsGo_preserves (ds : FileMeta) (cn fp : String) (tags : SearchTags)
    (pm pm2 : PathIndex) (c m : String)
    (h : pathLookup pm c m = some fp)
    (hrun : mdsGo ds cn fp tags pm = .ok pm2) :
    pathLookup pm2 c m = some fp := by
  induction tags generalizing pm with
  | nil =>
    simp only [mdsGo, Except.ok.injEq] at hrun
    rw [← hrun]
    exact h
  | cons mr rest ih =>
    obtain ⟨m0, R0⟩ := mr
    simp only [mdsGo] at hrun
    cases hct : check_tags ds R0 cn with
    | error e => rw [hct] at hrun; cases hrun
    | ok b =>
      rw [hct] at hrun
      cases b with
      | false => exact ih pm h hrun
      | true => exact ih _ (pathLookup_pathSet_keep pm c m fp cn m0 h) hrun

theorem mdsGo_writes (ds : FileMeta) (cn fp : String) (tags : SearchTags)
    (pm pm2 : PathIndex) (m : String) (R : ModRules)
    (hmem : (m, R) ∈ tags) (hmatch : check_tags ds R cn = .ok true)
    (hrun : mdsGo ds cn fp tags pm = .ok pm2) :
    pathLookup pm2 cn m = some fp := by
  induction tags generalizing pm with
  | nil => simp at hmem
  | cons mr rest ih =>
    obtain ⟨m0, R0⟩ := mr
    simp only [mdsGo] at hrun
    rcases List.mem_cons.mp hmem with h1 | h1
    · rw [Prod.mk.injEq] at h1
      obtain ⟨hm1, hR1⟩ := h1
      subst hm1
      subst hR1
      rw [hmatch] at hrun
      exact mdsGo_preserves ds cn fp rest _ pm2 cn m
        (pathLookup_pathSet_self pm cn m fp) hrun
    · cases hct : check_tags ds R0 cn with
      | error e => rw [hct] at hrun; cases hrun
      | ok b =>
        rw [hct] at hrun
        cases b with
        | false => exact ih pm h1 hrun
        | true => exact ih _ h1 hrun

theorem scanFiles_first (cfg : DicomParser) (root : String) (cnt : Nat)
    (l1 l2 : List SrcFile) (f : SrcFile) (pm : PathIndex)
    (hskip : ∀ g ∈ l1, check_file cfg g.is_file (pathJoin root g.name) cnt = false)
    (hcand : check_file cfg f.is_file (pathJoin root f.name) cnt = true) :
    scanFiles cfg root cnt (l1 ++ f :: l2) pm =
      meta_data_search cfg.search_tags f.meta (pathJoin root f.name) pm := by
  induction l1 with
  | nil => simp [scanFiles, hcand]
  | cons g rest ih =>
    have hg := hskip g (List.mem_cons_self _ _)
    simp only [List.cons_append, scanFiles, hg, Bool.false_eq_true, if_false]
    exact ih (fun g2 hm => hskip g2 (List.mem_cons_of_mem _ hm))

theorem scan_folder_append_ok (cfg : DicomParser) (dirs1 dirs2 : List SrcDir)
    (pm pm2 : PathIndex) (h : scan_folder cfg dirs1 pm = .ok pm2) :
    scan_folder cfg (dirs1 ++ dirs2) pm = scan_folder cfg dirs2 pm2 := by
  induction dirs1 generalizing pm with
  | nil =>
    simp only [scan_folder, Except.ok.injEq] at h
    rw [List.nil_append, h]
  | cons d rest ih =>
    simp only [scan_folder, List.cons_append] at h ⊢
    cases hsf : scanFiles cfg d.root d.listdirCount d.files pm with
    | error e =>
      rw [hsf] at h
      simp at h
    | ok pmx =>
      rw [hsf] at h
      exact ih pmx h

/-! ### Fixtures for the walk claims -/

/-- A one-category configuration accepting every file name. -/
def cfgW : DicomParser := ⟨1, [""], [("seriesA", rulesW)], []⟩

/-- A directory entry rejected by the candidate filter (not a regular
file). -/
def gW : SrcFile := ⟨"x.dat", false, dsW⟩

/-- The first candidate file of the directory. -/
def fW : SrcFile := ⟨"a.dcm", true, dsW⟩

/-- A later file of the same directory that is never inspected. -/
def fW2 : SrcFile := ⟨"b.dcm", true, dsW⟩

/-- A candidate file whose metadata lacks the required `Kind` key. -/
def fMissW : SrcFile := ⟨"a.dcm", true, dsAbsentW⟩

/-- A directory whose chosen candidate has incomplete metadata. -/
def dMissW : SrcDir := ⟨"/r", 3, [fMissW]⟩

/-- Claim C6: within one directory the walk hands at most the first
file passing the candidate filter to `meta_data_search`; everything
after that first candidate is never inspected, so the directory's
result equals the single `meta_data_search` call on that file,
whatever `l2` contains. -/
theorem c6_first_candidate_per_dir (cfg : DicomParser) (root : String) (cnt : Nat)
    (l1 l2 : List SrcFile) (f : SrcFile) (pm : PathIndex)
    (hskip : ∀ g ∈ l1, check_file cfg g.is_file (pathJoin root g.name) cnt = false)
    (hcand : check_file cfg f.is_file (pathJoin root f.name) cnt = true) :
    scanFiles cfg root cnt (l1 ++ f :: l2) pm =
      meta_data_search cfg.search_tags f.meta (pathJoin root f.name) pm :=
  scanFiles_first cfg root cnt l1 l2 f pm hskip hcand

theorem c6_first_candidate_per_dir_witness :
    scanFiles cfgW "/r" 3 ([gW] ++ fW :: [fW2]) [] =
      meta_data_search cfgW.search_tags fW.meta (pathJoin "/r" fW.name) [] :=
  c6_first_candidate_per_dir cfgW "/r" 3 [gW] [fW2] fW []
    (by decide) (by decide)

/-- Claim C2: when the candidate chosen in a directory lacks a metadata
key required by some configured category, the tag matcher's
`ValueError` propagates through `meta_data_search` and `scan_folder`:
the whole run returns that error (never a success), and the result is
already fixed by the raising file — the remaining files of the
directory and all later directories (`dirs2`) are never processed. -/
theorem c2_missing_key_aborts_run (cfg : DicomParser) (dirs1 dirs2 : List SrcDir)
    (d : SrcDir) (l1 l2 : List SrcFile) (f : SrcFile) (pm0 pm1 : PathIndex)
    (hfiles : d.files = l1 ++ f :: l2)
    (hskip : ∀ g ∈ l1, check_file cfg g.is_file (pathJoin d.root g.name) d.listdirCount = false)
    (hcand : check_file cfg f.is_file (pathJoin d.root f.name) d.listdirCount = true)
    (hmiss : ∃ mr ∈ cfg.search_tags, ∃ kv ∈ mr.2, pyTruthy (dsGet f.meta kv.1) = false)
    (hpre : scan_folder cfg dirs1 pm0 = .ok pm1) :
    (scan_folder cfg (dirs1 ++ d :: dirs2) pm0).isOk = false ∧
      scan_folder cfg (dirs1 ++ d :: dirs2) pm0 =
        meta_data_search cfg.search_tags f.meta (pathJoin d.root f.name) pm1 := by
  obtain ⟨e, he⟩ := mdsGo_error_of_falsy f.meta (case_name_of f.meta)
    (pathJoin d.root f.name) cfg.search_tags hmiss pm1
  have hmds : meta_data_search cfg.search_tags f.meta (pathJoin d.root f.name) pm1 =
      .error e := he
  have hsf : scanFiles cfg d.root d.listdirCount d.files pm1 = .error e := by
    rw [hfiles, scanFiles_first cfg d.root d.listdirCount l1 l2 f pm1 hskip hcand, hmds]
  have hmain : scan_folder cfg (dirs1 ++ d :: dirs2) pm0 = .error e := by
    rw [scan_folder_append_ok cfg dirs1 (d :: dirs2) pm0 pm1 hpre]
    simp only [scan_folder]
    rw [hsf]
  exact ⟨by rw [hmain]; rfl, by rw [hmain, hmds]⟩

theorem c2_missing_key_aborts_run_witness :
    (scan_folder cfgW ([] ++ dMissW :: []) []).isOk = false :=
  (c2_missing_key_aborts_run cfgW [] [] dMissW [] [] fMissW [] []
    rfl (by decide) (by decide) (by decide) rfl).1

/-- Claim C5: when two inspected files both match a category and derive
the same case identity, the file processed later overwrites the earlier
entry for that (case, category) pair, so the final index holds the
later file's location. -/
theorem c5_last_writer_wins (tags : SearchTags) (ds1 ds2 : FileMeta)
    (fp1 fp2 c m : String) (R : ModRules) (pm0 pm1 pm2 : PathIndex)
    (hm : (m, R) ∈ tags)
    (hc1 : case_name_of ds1 = c) (hc2 : case_name_of ds2 = c)
    (hmatch1 : check_tags ds1 R c = .ok true)
    (hmatch2 : check_tags ds2 R c = .ok true)
    (hrun1 : meta_data_search tags ds1 fp1 pm0 = .ok pm1)
    (hrun2 : meta_data_search tags ds2 fp2 pm1 = .ok pm2) :
    pathLookup pm2 c m = some fp2 := by
  rw [meta_data_search, hc2] at hrun2
  exact mdsGo_writes ds2 c fp2 tags pm1 pm2 m R hm hmatch2 hrun2

theorem c5_last_writer_wins_witness :
    pathLookup [("p1", [("seriesA", "/r/f2")])] "p1" "seriesA" = some "/r/f2" :=
  c5_last_writer_wins [("seriesA", rulesW)] dsW dsW "/r/f1" "/r/f2" "p1" "seriesA"
    rulesW [] [("p1", [("seriesA", "/r/f1")])] [("p1", [("seriesA", "/r/f2")])]
    (by decide) (by decide) (by decide) rfl rfl rfl rfl

/-! ### Index invariant -/

/-- A location that may legitimately be stored in the path memory: the
join of a walked directory and one of its files that passed the
candidate filter. -/
def fileOK (cfg : DicomParser) (fs : List SrcDir) (fp : String) : Prop :=
  ∃ d ∈ fs, ∃ f ∈ d.files, fp = pathJoin d.root f.name ∧
    check_file cfg f.is_file (pathJoin d.root f.name) d.listdirCount = true

/-- Invariant of the path memory: every inner key is a configured
category name, and every stored value is the location of a file that
passed the candidate filter. -/
def indexInv (cfg : DicomParser) (fs : List SrcDir) (pm : PathIndex) : Prop :=
  ∀ e ∈ pm, ∀ p ∈ e.2, p.1 ∈ cfg.search_tags.map Prod.fst ∧ fileOK cfg fs p.2

theorem indexInv_pathSet (cfg : DicomParser) (fs : List SrcDir) (pm : PathIndex)
    (c m fp : String) (hinv : indexInv cfg fs pm)
    (hm : m ∈ cfg.search_tags.map Prod.fst) (hfp : fileOK cfg fs fp) :
    indexInv cfg fs (pathSet pm c m fp) := by
  intro e he p hp
  obtain ⟨c1, inner1⟩ := e
  rcases mem_dictSet pm c c1 _ inner1 he with ⟨hc, hinner⟩ | hmem
  · rw [hinner] at hp
    obtain ⟨m1, fp1⟩ := p
    rcases mem_dictSet _ m m1 fp fp1 hp with ⟨hm1, hfp1⟩ | hmem2
    · exact ⟨hm1 ▸ hm, hfp1 ▸ hfp⟩
    · cases hl : pm.lookup c with
      | none => rw [hl] at hmem2; simp at hmem2
      | some inner0 =>
        rw [hl] at hmem2
        exact hinv (c, inner0) (mem_of_lookup_eq_some pm c inner0 hl) (m1, fp1) hmem2
  · exact hinv (c1, inner1) hmem p hp

theorem mdsGo_indexInv (cfg : DicomParser) (fs : List SrcDir) (ds : FileMeta)
    (cn fp : String) (tags : SearchTags) (pm pm2 : PathIndex)
    (htags : ∀ mr ∈ tags, mr.1 ∈ cfg.search_tags.map Prod.fst)
    (hfp : fileOK cfg fs fp) (hinv : indexInv cfg fs pm)
    (hrun : mdsGo ds cn fp tags pm = .ok pm2) : indexInv cfg fs pm2 := by
  induction tags generalizing pm with
  | nil =>
    simp only [mdsGo, Except.ok.injEq] at hrun
    rw [← hrun]
    exact hinv
  | cons mr rest ih =>
    obtain ⟨m0, R0⟩ := mr
    simp only [mdsGo] at hrun
    cases hct : check_tags ds R0 cn with
    | error e => rw [hct] at hrun; cases hrun
    | ok b =>
      rw [hct] at hrun
      cases b with
      | false =>
        exact ih pm (fun mr2 h2 => htags mr2 (List.mem_cons_of_mem _ h2)) hinv hrun
      | true =>
        exact ih _ (fun mr2 h2 => htags mr2 (List.mem_cons_of_mem _ h2))
          (indexInv_pathSet cfg fs pm cn m0 fp hinv
            (htags (m0, R0) (List.mem_cons_self _ _)) hfp) hrun

theorem scanFiles_indexInv (cfg : DicomParser) (fs : List SrcDir) (d : SrcDir)
    (hd : d ∈ fs) (files : List SrcFile) (hsub : ∀ f ∈ files, f ∈ d.files)
    (pm pm2 : PathIndex) (hinv : indexInv cfg fs pm)
    (hrun : scanFiles cfg d.root d.listdirCount files pm = .ok pm2) :
    indexInv cfg fs pm2 := by
  induction files generalizing pm with
  | nil =>
    simp only [scanFiles, Except.ok.injEq] at hrun
    rw [← hrun]
    exact hinv
  | cons f rest ih =>
    simp only [scanFiles] at hrun
    cases hcf : check_file cfg f.is_file (pathJoin d.root f.name) d.listdirCount with
    | true =>
      rw [hcf] at hrun
      simp only [if_true] at hrun
      exact mdsGo_indexInv cfg fs f.meta (case_name_of f.meta) (pathJoin d.root f.name)
        cfg.search_tags pm pm2
        (fun mr h2 => List.mem_map_of_mem Prod.fst h2)
        ⟨d, hd, f, hsub f (List.mem_cons_self _ _), rfl, hcf⟩ hinv hrun
    | false =>
      rw [hcf] at hrun
      simp only [Bool.false_eq_true, if_false] at hrun
      exact ih (fun f2 h2 => hsub f2 (List.mem_cons_of_mem _ h2)) pm hinv hrun

theorem scan_folder_indexInv (cfg : DicomParser) (fs : List SrcDir)
    (dirs : List SrcDir) (hsub : ∀ d ∈ dirs, d ∈ fs) (pm pm2 : PathIndex)
    (hinv : indexInv cfg fs pm) (hrun : scan_folder cfg dirs pm = .ok pm2) :
    indexInv cfg fs pm2 := by
  induction dirs generalizing pm with
  | nil =>
    simp only [scan_folder, Except.ok.injEq] at hrun
    rw [← hrun]
    exact hinv
  | cons d rest ih =>
    simp only [scan_folder] at hrun
    cases hsf : scanFiles cfg d.root d.listdirCount d.files pm with
    | error e => rw [hsf] at hrun; cases hrun
    | ok pmx =>
      rw [hsf] at hrun
      exact ih (fun d2 h2 => hsub d2 (List.mem_cons_of_mem _ h2)) pmx
        (scanFiles_indexInv cfg fs d (hsub d (List.mem_cons_self _ _)) d.files
          (fun f hf => hf) pm pmx hinv hsf) hrun

/-- Claim C10: classification preserves the path-memory invariant —
after any `scan_folder` run starting from an invariant-satisfying
memory (in particular the empty one, and any intermediate state),
every inner key of the index is a configured category name and every
stored value is the location of a file that passed the candidate
filter. -/
theorem c10_index_invariant (cfg : DicomParser) (fs : List SrcDir)
    (pm pm2 : PathIndex) (hinv : indexInv cfg fs pm)
    (hrun : scan_folder cfg fs pm = .ok pm2) : indexInv cfg fs pm2 :=
  scan_folder_indexInv cfg fs fs (fun d hd => hd) pm pm2 hinv hrun

/-- The directory of the walk fixtures. -/
def dW : SrcDir := ⟨"/r", 3, [gW, fW, fW2]⟩

theorem c10_index_invariant_witness :
    indexInv cfgW [dW] [("p1", [("seriesA", pathJoin "/r" "a.dcm")])] :=
  c10_index_invariant cfgW [dW] pathMemInit
    [("p1", [("seriesA", pathJoin "/r" "a.dcm")])]
    (by intro e he p hp; simp [pathMemInit] at he) rfl

/-! ### Completeness validator -/

theorem length_filter_split {α : Type} (p : α → Bool) (l : List α) :
    (l.filter p).length + (l.filter (fun a => !p a)).length = l.length := by
  induction l with
  | nil => rfl
  | cons a rest ih =>
    cases hp : p a <;> simp [List.filter_cons, hp] <;> omega

/-- Claim C4: for a case recorded with K of the M configured categories,
the validator report contains exactly one entry for that case when
K is not M, holding exactly the M − K missing category names (the set
difference between configured and recorded categories); a case with
zero missing categories is never reported. -/
theorem c4_completeness_report (cfg : DicomParser) (pm : PathIndex) (c : String)
    (inner : List (String × String))
    (hndcfg : (cfg.search_tags.map Prod.fst).Nodup)
    (hndpm : (pm.map Prod.fst).Nodup)
    (hmem : (c, inner) ∈ pm)
    (hndinner : (inner.map Prod.fst).Nodup)
    (hsub : ∀ m ∈ inner.map Prod.fst, m ∈ cfg.search_tags.map Prod.fst) :
    (inner.length ≠ cfg.search_tags.length →
      ((c, missingSequences cfg.search_tags inner) ∈ check_path_memory cfg pm ∧
        (∀ r, (c, r) ∈ check_path_memory cfg pm →
          r = missingSequences cfg.search_tags inner) ∧
        (missingSequences cfg.search_tags inner).length =
          cfg.search_tags.length - inner.length ∧
        ∀ t, t ∈ missingSequences cfg.search_tags inner ↔
          (t ∈ cfg.search_tags.map Prod.fst ∧ t ∉ inner.map Prod.fst))) ∧
    (inner.length = cfg.search_tags.length →
      ∀ r, (c, r) ∉ check_path_memory cfg pm) := by
  have hperm : ((cfg.search_tags.map Prod.fst).filter
      (fun t => decide (t ∈ inner.map Prod.fst))).Perm (inner.map Prod.fst) := by
    apply (List.perm_ext_iff_of_nodup (hndcfg.filter _) hndinner).mpr
    intro a
    simp only [List.mem_filter, decide_eq_true_eq]
    constructor
    · rintro ⟨_, h2⟩; exact h2
    · intro h; exact ⟨hsub a h, h⟩
  have hmisslen : (missingSequences cfg.search_tags inner).length =
      cfg.search_tags.length - inner.length := by
    have hsplit := length_filter_split
      (fun t => decide (t ∈ inner.map Prod.fst)) (cfg.search_tags.map Prod.fst)
    have hk := hperm.length_eq
    have hrw : missingSequences cfg.search_tags inner =
        (cfg.search_tags.map Prod.fst).filter
          (fun t => !decide (t ∈ inner.map Prod.fst)) := by
      simp only [missingSequences, decide_not]
    rw [hrw]
    rw [List.length_map] at hk
    rw [List.length_map] at hsplit
    omega
  constructor
  · intro hK
    refine ⟨?_, ?_, hmisslen, ?_⟩
    · rw [check_path_memory, List.mem_filterMap]
      exact ⟨(c, inner), hmem, by rw [if_pos (Ne.symm hK)]⟩
    · intro r hr
      rw [check_path_memory, List.mem_filterMap] at hr
      obtain ⟨⟨c2, inner2⟩, hmem2, hf⟩ := hr
      by_cases hcond : cfg.search_tags.length ≠ inner2.length
      · rw [if_pos hcond] at hf
        simp only [Option.some.injEq, Prod.mk.injEq] at hf
        obtain ⟨hc2, hr2⟩ := hf
        subst hc2
        have : inner2 = inner := assoc_unique pm c2 inner2 inner hndpm hmem2 hmem
        rw [← hr2, this]
      · rw [if_neg hcond] at hf
        cases hf
    · intro t
      simp only [missingSequences, List.mem_filter, decide_eq_true_eq]
  · intro heq r hr
    rw [check_path_memory, List.mem_filterMap] at hr
    obtain ⟨⟨c2, inner2⟩, hmem2, hf⟩ := hr
    by_cases hcond : cfg.search_tags.length ≠ inner2.length
    · rw [if_pos hcond] at hf
      simp only [Option.some.injEq, Prod.mk.injEq] at hf
      obtain ⟨hc2, hr2⟩ := hf
      subst hc2
      have : inner2 = inner := assoc_unique pm c2 inner2 inner hndpm hmem2 hmem
      rw [this] at hcond
      exact hcond heq.symm
    · rw [if_neg hcond] at hf
      cases hf

/-- A two-category configuration for the validator witness. -/
def cfg4W : DicomParser := ⟨1, [""], [("seriesA", rulesW), ("seriesB", rulesW)], []⟩

/-- A path memory with one incomplete and one complete case. -/
def pm4W : PathIndex :=
  [("p1", [("seriesA", "/a")]), ("p2", [("seriesA", "/a"), ("seriesB", "/b")])]

theorem c4_completeness_report_witness :
    ("p1", ["seriesB"]) ∈ check_path_memory cfg4W pm4W :=
  (((c4_completeness_report cfg4W pm4W "p1" [("seriesA", "/a")]
    (by decide) (by decide) (by decide) (by decide) (by decide)).1) (by decide)).1

/-! ### Rerun stability of the classifier -/

theorem mdsGo_rerun (ds : FileMeta) (cn fp : String) (tags : SearchTags)
    (pmA pmA2 : PathIndex) (hrunA : mdsGo ds cn fp tags pmA = .ok pmA2) (pmB : PathIndex) :
    ∃ pmB2, mdsGo ds cn fp tags pmB = .ok pmB2 ∧
      ∀ c m, pathLookup pmA2 c m = pathLookup pmB2 c m ∨
        (pathLookup pmA2 c m = pathLookup pmA c m ∧
         pathLookup pmB2 c m = pathLookup pmB c m) := by
  induction tags generalizing pmA pmB with
  | nil =>
    simp only [mdsGo, Except.ok.injEq] at hrunA
    exact ⟨pmB, rfl, fun c m => Or.inr ⟨by rw [hrunA], rfl⟩⟩
  | cons mr rest ih =>
    obtain ⟨m0, R0⟩ := mr
    simp only [mdsGo] at hrunA ⊢
    cases hct : check_tags ds R0 cn with
    | error e => rw [hct] at hrunA; cases hrunA
    | ok b =>
      rw [hct] at hrunA
      cases b with
      | false => exact ih pmA hrunA pmB
      | true =>
        obtain ⟨pmB2, hB, hrel⟩ :=
          ih (pathSet pmA cn m0 fp) hrunA (pathSet pmB cn m0 fp)
        refine ⟨pmB2, hB, ?_⟩
        intro c m
        rcases hrel c m with h | ⟨h1, h2⟩
        · exact Or.inl h
        · by_cases hc : c = cn ∧ m = m0
          · obtain ⟨hc1, hm1⟩ := hc
            subst hc1
            subst hm1
            rw [pathLookup_pathSet_self] at h1 h2
            exact Or.inl (h1.trans h2.symm)
          · have hne : cn ≠ c ∨ m0 ≠ m := by
              rcases not_and_or.mp hc with h3 | h3
              · exact Or.inl (fun he => h3 he.symm)
              · exact Or.inr (fun he => h3 he.symm)
            rw [pathLookup_pathSet_ne pmA c m fp cn m0 hne] at h1
            rw [pathLookup_pathSet_ne pmB c m fp cn m0 hne] at h2
            exact Or.inr ⟨h1, h2⟩

theorem scanFiles_rerun (cfg : DicomParser) (root : String) (cnt : Nat)
    (files : List SrcFile) (pmA pmA2 : PathIndex)
    (hrunA : scanFiles cfg root cnt files pmA = .ok pmA2) (pmB : PathIndex) :
    ∃ pmB2, scanFiles cfg root cnt files pmB = .ok pmB2 ∧
      ∀ c m, pathLookup pmA2 c m = pathLookup pmB2 c m ∨
        (pathLookup pmA2 c m = pathLookup pmA c m ∧
         pathLookup pmB2 c m = pathLookup pmB c m) := by
  induction files generalizing pmA pmB with
  | nil =>
    simp only [scanFiles, Except.ok.injEq] at hrunA
    exact ⟨pmB, rfl, fun c m => Or.inr ⟨by rw [hrunA], rfl⟩⟩
  | cons f rest ih =>
    simp only [scanFiles] at hrunA ⊢
    cases hcf : check_file cfg f.is_file (pathJoin root f.name) cnt with
    | true =>
      rw [hcf] at hrunA
      simp only [if_true] at hrunA
      exact mdsGo_rerun f.meta (case_name_of f.meta) (pathJoin root f.name)
        cfg.search_tags pmA pmA2 hrunA pmB
    | false =>
      rw [hcf] at hrunA
      simp only [Bool.false_eq_true, if_false] at hrunA
      exact ih pmA hrunA pmB

theorem scan_folder_rerun (cfg : DicomParser) (dirs : List SrcDir)
    (pmA pmA2 : PathIndex) (hrunA : scan_folder cfg dirs pmA = .ok pmA2)
    (pmB : PathIndex) :
    ∃ pmB2, scan_folder cfg dirs pmB = .ok pmB2 ∧
      ∀ c m, pathLookup pmA2 c m = pathLookup pmB2 c m ∨
        (pathLookup pmA2 c m = pathLookup pmA c m ∧
         pathLookup pmB2 c m = pathLookup pmB c m) := by
  induction dirs generalizing pmA pmB with
  | nil =>
    simp only [scan_folder, Except.ok.injEq] at hrunA
    exact ⟨pmB, rfl, fun c m => Or.inr ⟨by rw [hrunA], rfl⟩⟩
  | cons d rest ih =>
    simp only [scan_folder] at hrunA ⊢
    cases hsfA : scanFiles cfg d.root d.listdirCount d.files pmA with
    | error e => rw [hsfA] at hrunA; cases hrunA
    | ok pmA1 =>
      rw [hsfA] at hrunA
      obtain ⟨pmB1, hsfB, hrel1⟩ :=
        scanFiles_rerun cfg d.root d.listdirCount d.files pmA pmA1 hsfA pmB
      rw [hsfB]
      obtain ⟨pmB2, hB, hrel2⟩ := ih pmA1 hrunA pmB1
      refine ⟨pmB2, hB, ?_⟩
      intro c m
      rcases hrel2 c m with h | ⟨h1, h2⟩
      · exact Or.inl h
      · rcases hrel1 c m with h3 | ⟨h3, h4⟩
        · exact Or.inl ((h1.trans h3).trans h2.symm)
        · exact Or.inr ⟨h1.trans h3, h2.trans h4⟩

/-- Claim C8: a second classification pass over the unchanged tree with
the unchanged configuration yields the identical case → category →
location mapping: every lookup in the index after the second run equals
the lookup after the first. -/
theorem c8_second_run_identical (cfg : DicomParser) (fs : List SrcDir)
    (pm1 pm2 : PathIndex) (c m : String)
    (h1 : scan_folder cfg fs pathMemInit = .ok pm1)
    (h2 : scan_folder cfg fs pm1 = .ok pm2) :
    pathLookup pm2 c m = pathLookup pm1 c m := by
  obtain ⟨pmB2, hB, hrel⟩ := scan_folder_rerun cfg fs pathMemInit pm1 h1 pm1
  rw [hB] at h2
  have hBB : pmB2 = pm2 := Except.ok.inj h2
  rw [← hBB]
  rcases hrel c m with h | ⟨ha, hb⟩
  · exact h.symm
  · exact hb

/-- The path memory produced by scanning `dW` with `cfgW`. -/
def pmResW : PathIndex := [("p1", [("seriesA", pathJoin "/r" "a.dcm")])]

theorem c8_second_run_identical_witness :
    pathLookup pmResW "p1" "seriesA" = pathLookup pmResW "p1" "seriesA" :=
  c8_second_run_identical cfgW [dW] pmResW pmResW "p1" "seriesA" rfl rfl
